import Mathlib

/-!
Verification development for the flashgrep incremental code-search service.

The definitions below are shallow embeddings of the Rust source:
 * `src/chunking/mod.rs`    — `Chunker::chunk_file`, `find_chunk_boundary`
 * `src/symbols/mod.rs`     — `SymbolDetector` and its regex patterns
 * `src/db/mod.rs`          — metadata store operations
 * `src/index/engine.rs`    — `Indexer::index_file`, `clear_index`, writer commits
 * `src/index/scanner.rs`   — `FlashgrepIgnore::glob_match`
 * `src/search/mod.rs`      — query-planner candidate fetch limit
 * `src/mcp/code_io.rs`     — `read_code`, `apply_budgets`, `write_code`,
                              `check_preconditions`
Machine strings are modelled as Lean `String` / `List Char`; byte lengths are
UTF-8 byte counts; `usize` arithmetic uses `Nat` with explicit saturation where
the source saturates.  SHA-256 (an external library call in the source) is
modelled as an arbitrary function parameter `h : String → String`.
-/

namespace Flashgrep

/-! ## String and character utilities -/

/-- UTF-8 byte size of one character (models Rust `str::len` accounting). -/
def charUtf8Size (c : Char) : Nat :=
  if c.toNat < 0x80 then 1
  else if c.toNat < 0x800 then 2
  else if c.toNat < 0x10000 then 3
  else 4

/-- UTF-8 byte length of a string (models Rust `str::as_bytes().len()`). -/
def strBytes (s : String) : Nat :=
  s.data.foldl (fun n c => n + charUtf8Size c) 0

/-- Token counter state machine: counts maximal non-whitespace runs
(models Rust `str::split_whitespace().count()`). -/
def countTokensAux : List Char → Bool → Nat
  | [], _ => 0
  | c :: rest, inWord =>
    if c.isWhitespace then countTokensAux rest false
    else (if inWord then 0 else 1) + countTokensAux rest true

/-- Approximate token count of a line (`estimate_tokens` in code_io.rs). -/
def estimate_tokens (s : String) : Nat := countTokensAux s.data false

/-- Strip leading and trailing whitespace (models Rust `str::trim`). -/
def trimChars (l : List Char) : List Char :=
  ((l.dropWhile Char.isWhitespace).reverse.dropWhile Char.isWhitespace).reverse

/-- A line is blank when its trim is empty. -/
def isBlankLine (s : String) : Bool := trimChars s.data = []

def braceOpen : Char := '\x7b'
def braceClose : Char := '\x7d'

/-- Bracket-depth contribution of one character (`{ [ (` open, `} ] )` close). -/
def charDepth (c : Char) : Int :=
  if c = braceOpen ∨ c = '[' ∨ c = '(' then 1
  else if c = braceClose ∨ c = ']' ∨ c = ')' then -1
  else 0

/-- Bracket depth accumulated over one (trimmed) line, as in
`find_chunk_boundary`'s inner `for c in line.chars()` loop. -/
def lineDepth (s : String) : Int :=
  (trimChars s.data).foldl (fun d c => d + charDepth c) 0

/-- Split a character list on a separator, keeping empty pieces
(models Rust `str::split(sep)`). Always returns a non-empty list. -/
def splitChar (sep : Char) : List Char → List (List Char)
  | [] => [[]]
  | c :: rest =>
    if c = sep then [] :: splitChar sep rest
    else
      match splitChar sep rest with
      | [] => [[c]]
      | p :: ps => (c :: p) :: ps

/-- Remove one trailing carriage return (the `\r` of a `\r\n` line ending). -/
def stripTrailingCR (l : List Char) : List Char :=
  match l.reverse with
  | '\r' :: rest => rest.reverse
  | _ => l

/-- Pieces of a `\n`-split, with the optional final empty piece dropped and
`\r` stripped from every piece that was followed by a `\n`. -/
def rustLinesAux : List (List Char) → List (List Char)
  | [] => []
  | [last] => if last = [] then [] else [last]
  | p :: rest => stripTrailingCR p :: rustLinesAux rest

/-- Model of Rust `str::lines()`. -/
def rustLines (s : String) : List String :=
  (rustLinesAux (splitChar '\n' s.data)).map String.mk

/-- Join strings with `"\n"`, models Rust `Vec::join("\n")`. -/
def joinNL : List String → String
  | [] => ""
  | [a] => a
  | a :: rest => a ++ "\n" ++ joinNL rest

/-- Rust `str::split('\n')` collected, for `write_code`'s replacement split. -/
def rustSplitNL (s : String) : List String :=
  (splitChar '\n' s.data).map String.mk

/-! ## Chunker (`src/chunking/mod.rs`) -/

/-- Maximum number of lines per chunk (`MAX_CHUNK_LINES`). -/
def MAX_CHUNK_LINES : Nat := 300

/-- A chunk row (`db/models.rs::Chunk`, `id` omitted as it is always `None`
before insertion). -/
structure Chunk where
  filePath : String
  startLine : Nat
  endLine : Nat
  contentHash : String
  content : String
  lastModified : Int
  deriving DecidableEq, Repr

/-- `Chunk::new`: hashes the content with SHA-256 (modelled by the parameter
`h`). -/
def Chunk.make (h : String → String) (filePath : String) (startLine endLine : Nat)
    (content : String) (lastModified : Int) : Chunk :=
  { filePath := filePath, startLine := startLine, endLine := endLine
    contentHash := h content, content := content, lastModified := lastModified }

/-- The scanning loop of `find_chunk_boundary`: iterate `i` from `start` to
`maxEnd`, tracking bracket depth and the last blank line; break early (with
boundary `i+1`) when the depth returns to zero on a blank line; otherwise the
running `end` is `i+1`.  `endAcc` is the `end` variable, initially `start`.
Fuel-based recursion; callers supply `fuel ≥ maxEnd - i` so the fuel never
runs out mid-loop. -/
def fcbLoop (lines : List String) (maxEnd : Nat) :
    Nat → Nat → Int → Option Nat → Nat → Nat
  | 0, _, _, _, endAcc => endAcc
  | fuel + 1, i, depth, lastBlank, endAcc =>
    if i < maxEnd then
      let line := lines.getD i ""
      let depth' := depth + lineDepth line
      let lastBlank' := if isBlankLine line then some i else lastBlank
      if depth' = 0 ∧ lastBlank' = some i then i + 1
      else fcbLoop lines maxEnd fuel (i + 1) depth' lastBlank' (i + 1)
    else endAcc

/-- `Chunker::find_chunk_boundary`: returns the (exclusive, 0-indexed)
boundary and the chunk's lines. -/
def findChunkBoundary (lines : List String) (start : Nat) : Nat × List String :=
  let maxEnd := min (start + MAX_CHUNK_LINES) lines.length
  let e := fcbLoop lines maxEnd (maxEnd - start) start 0 none start
  let e := if e = start then maxEnd else e
  (e, (lines.drop start).take (e - start))

/-- The `while current_start < lines.len()` loop of `Chunker::chunk_file`,
fuel-based (each iteration advances `currentStart` by at least one, so fuel
`lines.length` always suffices from `currentStart = 0`). -/
def chunkLoop (h : String → String) (filePath : String) (lines : List String)
    (lastModified : Int) : Nat → Nat → List Chunk
  | 0, _ => []
  | fuel + 1, currentStart =>
    if currentStart < lines.length then
      let r := findChunkBoundary lines currentStart
      Chunk.make h filePath (currentStart + 1) r.1 (joinNL r.2) lastModified
        :: chunkLoop h filePath lines lastModified fuel r.1
    else []

/-- `Chunker::chunk_file`. -/
def chunkFile (h : String → String) (filePath : String) (content : String)
    (lastModified : Int) : List Chunk :=
  let lines := rustLines content
  chunkLoop h filePath lines lastModified lines.length 0

/-! ## Symbol detector (`src/symbols/mod.rs`)

The detector applies a fixed set of regexes per line.  Each regex is
translated into an explicit scanner with the regex crate's leftmost-first
semantics: `(?:^|\s)` is a boundary (start of line, or one whitespace
character consumed by the match), alternations are tried in order, `\s+`
and `\s*` are greedy whitespace runs, and an optional group backtracks to
the empty alternative when the rest of the pattern cannot match. -/

/-- Symbol kinds (`db/models.rs::SymbolType`). -/
inductive SymbolType where
  | kFunction
  | kClass
  | kStruct
  | kInterface
  | kImport
  | kExport
  | kRoute
  | kSqlQuery
  | kPublic
  | kPrivate
  | kOther (tag : String)
  deriving DecidableEq, Repr

/-- A symbol row (`db/models.rs::Symbol`, `id` omitted). -/
structure Symbol where
  symbolName : String
  filePath : String
  lineNumber : Nat
  symbolType : SymbolType
  deriving DecidableEq, Repr

/-- Case-insensitive character equality (the `(?i)` flag). -/
def lowerEq (a b : Char) : Bool := a.toLower == b.toLower

/-- `kw` is a case-insensitive prefix of `s`. -/
def matchesCI : List Char → List Char → Bool
  | [], _ => true
  | _ :: _, [] => false
  | k :: ks, c :: cs => lowerEq k c && matchesCI ks cs

/-- `kw` is a case-sensitive prefix of `s`. -/
def matchesCS : List Char → List Char → Bool
  | [], _ => true
  | _ :: _, [] => false
  | k :: ks, c :: cs => (k == c) && matchesCS ks cs

def toLowerList (l : List Char) : List Char := l.map Char.toLower

/-- `needle` occurs (case-sensitively) somewhere in `haystack`
(models Rust `str::contains`). -/
def containsSub (needle : List Char) : List Char → Bool
  | [] => matchesCS needle []
  | c :: cs => matchesCS needle (c :: cs) || containsSub needle cs

/-- `[a-zA-Z_]`. -/
def isIdentStart (c : Char) : Bool := c.isAlpha || c == '_'

/-- `[a-zA-Z0-9_]`. -/
def isIdentChar (c : Char) : Bool := c.isAlphanum || c == '_'

/-- Capture `[a-zA-Z_][a-zA-Z0-9_]*` at the head of `s`; returns the
identifier and the rest. -/
def takeIdent : List Char → Option (List Char × List Char)
  | [] => none
  | c :: cs =>
    if isIdentStart c then
      some (c :: cs.takeWhile isIdentChar, cs.dropWhile isIdentChar)
    else none

/-- Try, in order, each keyword alternative `kw` such that
`kw \s+ ident` matches at the head of `s` (case-insensitive keywords);
on success return the captured identifier and the rest after it.
Mirrors regex backtracking across the alternation. -/
def tryKwIdent : List (List Char) → List Char → Option (List Char × List Char)
  | [], _ => none
  | kw :: more, s =>
    if matchesCI kw s then
      match s.drop kw.length with
      | c :: cs =>
        if c.isWhitespace then
          match takeIdent (cs.dropWhile Char.isWhitespace) with
          | some r => some r
          | none => tryKwIdent more s
        else tryKwIdent more s
      | [] => tryKwIdent more s
    else tryKwIdent more s

/-- `captures_iter` for a pattern `(?i)(?:^|\s)(?:kw1|…)\s+([a-zA-Z_]\w*)`:
scan left to right; a match may begin at the line start or after a
whitespace character; after a match, scanning resumes past the captured
identifier.  Fuel-based (callers pass `fuel = s.length`). -/
def kwIdentScan (kws : List (List Char)) : Nat → List Char → Bool → List (List Char)
  | 0, _, _ => []
  | _ + 1, [], _ => []
  | fuel + 1, s@(c :: rest), atB =>
    if atB then
      match tryKwIdent kws s with
      | some (ident, after) => ident :: kwIdentScan kws fuel after false
      | none => kwIdentScan kws fuel rest c.isWhitespace
    else kwIdentScan kws fuel rest c.isWhitespace

/-- Function pattern `(?i)(?:^|\s)(?:fn|def|func|function)\s+(ident)`:
all captured identifiers of a line. -/
def functionIdents (line : List Char) : List (List Char) :=
  kwIdentScan ["fn".data, "def".data, "func".data, "function".data]
    line.length line true

/-- Class pattern `(?i)(?:^|\s)(?:class|struct|interface|type)\s+(ident)`. -/
def classIdents (line : List Char) : List (List Char) :=
  kwIdentScan ["class".data, "struct".data, "interface".data, "type".data]
    line.length line true

/-- Scan every boundary position (line start or right after a whitespace
character) for a predicate on the remaining suffix: models `is_match` of a
regex beginning with `(?:^|\s)`. -/
def boundaryScan (p : List Char → Bool) : List Char → Bool → Bool
  | [], _ => false
  | c :: rest, atB => (atB && p (c :: rest)) || boundaryScan p rest c.isWhitespace

/-- `\s+` then any characters then `import` — the `from\s+.*import` branch
of the import pattern (case-insensitive). -/
def fromImportTail : List Char → Bool
  | [] => false
  | c :: cs => c.isWhitespace && containsSub (toLowerList "import".data) (toLowerList cs)

/-- Import pattern `(?i)(?:^|\s)(?:import|require|include|use|from\s+.*import)`. -/
def importIsMatch (line : List Char) : Bool :=
  boundaryScan
    (fun s =>
      matchesCI "import".data s || matchesCI "require".data s ||
      matchesCI "include".data s || matchesCI "use".data s ||
      (matchesCI "from".data s && fromImportTail (s.drop 4)))
    line true

/-- The `pub\s+(?:fn|struct|enum|const|let|type)` branch of the export
pattern. -/
def pubItemAt (s : List Char) : Bool :=
  matchesCI "pub".data s &&
    (match s.drop 3 with
     | [] => false
     | c :: cs =>
       c.isWhitespace &&
         (let r := cs.dropWhile Char.isWhitespace
          matchesCI "fn".data r || matchesCI "struct".data r ||
          matchesCI "enum".data r || matchesCI "const".data r ||
          matchesCI "let".data r || matchesCI "type".data r))

/-- Export pattern
`(?i)(?:^|\s)(?:export|module\.exports|pub\s+(?:fn|struct|enum|const|let|type)|public)`. -/
def exportIsMatch (line : List Char) : Bool :=
  boundaryScan
    (fun s =>
      matchesCI "export".data s || matchesCI "module.exports".data s ||
      pubItemAt s || matchesCI "public".data s)
    line true

/-- `.get\s*\(` and friends: keyword, then optional whitespace, then `(`. -/
def dotCallAt (kw : List Char) (s : List Char) : Bool :=
  matchesCI kw s &&
    (match (s.drop kw.length).dropWhile Char.isWhitespace with
     | '(' :: _ => true
     | _ => false)

/-- Route pattern
`(?i)(?:^|\s)(?:\.get\s*\(|\.post\s*\(|\.put\s*\(|\.delete\s*\(|@(?:Get|Post|Put|Delete)|router\.)`. -/
def routeIsMatch (line : List Char) : Bool :=
  boundaryScan
    (fun s =>
      dotCallAt ".get".data s || dotCallAt ".post".data s ||
      dotCallAt ".put".data s || dotCallAt ".delete".data s ||
      matchesCI "@get".data s || matchesCI "@post".data s ||
      matchesCI "@put".data s || matchesCI "@delete".data s ||
      matchesCI "router.".data s)
    line true

/-- SQL pattern `(?i)(?:^|\s)(?:SELECT|INSERT|UPDATE|DELETE|CREATE|DROP|ALTER)\s+`. -/
def sqlIsMatch (line : List Char) : Bool :=
  boundaryScan
    (fun s =>
      ["select", "insert", "update", "delete", "create", "drop", "alter"].any
        (fun kw =>
          matchesCI kw.data s &&
            (match s.drop kw.length with
             | c :: _ => c.isWhitespace
             | [] => false)))
    line true

/-- Visibility pattern `(?i)(?:^|\s)(?:public|private|protected|internal|pub)`. -/
def visibilityIsMatch (line : List Char) : Bool :=
  boundaryScan
    (fun s =>
      matchesCI "public".data s || matchesCI "private".data s ||
      matchesCI "protected".data s || matchesCI "internal".data s ||
      matchesCI "pub".data s)
    line true

/-- Find the leftmost position whose suffix satisfies a partial match
function (models `Regex::captures`, which returns the leftmost match). -/
def scanFirst (p : List Char → Option (List Char)) : Nat → List Char → Option (List Char)
  | 0, _ => none
  | _ + 1, [] => none
  | fuel + 1, s@(_ :: rest) =>
    match p s with
    | some r => some r
    | none => scanFirst p fuel rest

/-- One alternative of `extract_import_name`'s pattern at a fixed position:
`(?:import|require|include|use)\s+(?:['"]?)([a-zA-Z_][a-zA-Z0-9_/.]*)`
(case-sensitive). -/
def importNameAt (kws : List (List Char)) (s : List Char) : Option (List Char) :=
  match kws with
  | [] => none
  | kw :: more =>
    (if matchesCS kw s then
      match s.drop kw.length with
      | c :: cs =>
        if c.isWhitespace then
          let r := cs.dropWhile Char.isWhitespace
          let r := match r with
            | q :: qs => if q = '\'' ∨ q = '"' then qs else r
            | [] => r
          match r with
          | d :: ds =>
            if isIdentStart d then
              some (d :: ds.takeWhile (fun x => isIdentChar x || x == '/' || x == '.'))
            else none
          | [] => none
        else none
      | [] => none
    else none).orElse (fun _ => importNameAt more s)

/-- `extract_import_name`. -/
def extractImportName (line : List Char) : String :=
  match scanFirst
      (importNameAt ["import".data, "require".data, "include".data, "use".data])
      line.length line with
  | some n => String.mk n
  | none => "import"

/-- The optional item-keyword-then-identifier tail shared by
`extract_export_name` and `extract_visibility_name`: try each keyword
(case-sensitively) followed by `\s*` and an identifier; backtrack to the
empty alternative (identifier directly) when none completes. -/
def optKwThenIdent (kws : List (List Char)) (s : List Char) : Option (List Char) :=
  match kws with
  | [] =>
    match takeIdent s with
    | some r => some r.1
    | none => none
  | kw :: more =>
    (if matchesCS kw s then
      match takeIdent ((s.drop kw.length).dropWhile Char.isWhitespace) with
      | some r => some r.1
      | none => optKwThenIdent more s
    else optKwThenIdent more s)

/-- `extract_export_name`:
`export\s+(?:const|let|var|function|class|interface|type|default\s+)?\s*(ident)`. -/
def extractExportName (line : List Char) : String :=
  match scanFirst
      (fun s =>
        if matchesCS "export".data s then
          match s.drop 6 with
          | c :: cs =>
            if c.isWhitespace then
              optKwThenIdent
                ["const".data, "let".data, "var".data, "function".data,
                 "class".data, "interface".data, "type".data, "default ".data]
                (cs.dropWhile Char.isWhitespace)
            else none
          | [] => none
        else none)
      line.length line with
  | some n => String.mk n
  | none => "export"

/-- Quoted-run capture for `extract_route_name`'s first alternative
`['"]([^'"]+)['"]`. -/
def quotedAt (s : List Char) : Option (List Char) :=
  match s with
  | q :: rest =>
    if q = '\'' ∨ q = '"' then
      let inner := rest.takeWhile (fun c => ¬(c = '\'' ∨ c = '"'))
      match rest.drop inner.length with
      | q2 :: _ => if (q2 = '\'' ∨ q2 = '"') ∧ inner ≠ [] then some inner else none
      | [] => none
    else none
  | [] => none

/-- `extract_route_name`: `['"]([^'"]+)['"]|\((['"][^'"]+['"])\)`;
the second alternative captures the quotes as part of the name. -/
def extractRouteName (line : List Char) : String :=
  match scanFirst
      (fun s =>
        match quotedAt s with
        | some inner => some inner
        | none =>
          match s with
          | '(' :: rest =>
            (match quotedAt rest with
             | some inner =>
               match rest.drop (inner.length + 2) with
               | ')' :: _ => some (rest.take (inner.length + 2))
               | _ => none
             | none => none)
          | _ => none)
      line.length line with
  | some n => String.mk n
  | none => "route"

/-- `extract_sql_name`: chained `to_uppercase().contains(...)` checks. -/
def extractSqlName (line : List Char) : String :=
  let upper := line.map Char.toUpper
  if containsSub "SELECT".data upper then "SELECT"
  else if containsSub "INSERT".data upper then "INSERT"
  else if containsSub "UPDATE".data upper then "UPDATE"
  else if containsSub "DELETE".data upper then "DELETE"
  else if containsSub "CREATE".data upper then "CREATE"
  else "SQL"

/-- `extract_visibility_name`:
`(?:public|private|protected|pub)\s+(?:fn|function|def|class|struct|interface|const|let|var|static)?\s*(ident)`
(case-sensitive). -/
def visNameAt (kws : List (List Char)) (s : List Char) : Option (List Char) :=
  match kws with
  | [] => none
  | kw :: more =>
    (if matchesCS kw s then
      match s.drop kw.length with
      | c :: cs =>
        if c.isWhitespace then
          optKwThenIdent
            ["fn".data, "function".data, "def".data, "class".data,
             "struct".data, "interface".data, "const".data, "let".data,
             "var".data, "static".data]
            (cs.dropWhile Char.isWhitespace)
        else none
      | [] => none
    else none).orElse (fun _ => visNameAt more s)

def extractVisibilityName (line : List Char) : String :=
  match scanFirst
      (visNameAt ["public".data, "private".data, "protected".data, "pub".data])
      line.length line with
  | some n => String.mk n
  | none => "visibility"

/-- `SymbolDetector::detect_in_chunk`, restricted to one line: the seven
checks in source order (functions, classes, imports, exports, routes, sql,
visibility). -/
def detectLine (filePath : String) (lineNumber : Nat) (line : List Char) : List Symbol :=
  let lower := toLowerList line
  let funcs := (functionIdents line).map
    (fun n => Symbol.mk (String.mk n) filePath lineNumber SymbolType.kFunction)
  let classes := (classIdents line).map
    (fun n =>
      let ty :=
        if containsSub "class".data lower then SymbolType.kClass
        else if containsSub "struct".data lower then SymbolType.kStruct
        else if containsSub "interface".data lower then SymbolType.kInterface
        else SymbolType.kOther "type"
      Symbol.mk (String.mk n) filePath lineNumber ty)
  let imports :=
    if importIsMatch line then
      [Symbol.mk (extractImportName line) filePath lineNumber SymbolType.kImport]
    else []
  let exports :=
    if exportIsMatch line then
      [Symbol.mk (extractExportName line) filePath lineNumber SymbolType.kExport]
    else []
  let routes :=
    if routeIsMatch line then
      [Symbol.mk (extractRouteName line) filePath lineNumber SymbolType.kRoute]
    else []
  let sqls :=
    if sqlIsMatch line then
      [Symbol.mk (extractSqlName line) filePath lineNumber SymbolType.kSqlQuery]
    else []
  let vis :=
    if visibilityIsMatch line &&
        !containsSub "function".data lower &&
        !containsSub "fn".data lower &&
        !containsSub "def".data lower then
      let ty :=
        if containsSub "private".data lower then SymbolType.kPrivate
        else SymbolType.kPublic
      [Symbol.mk (extractVisibilityName line) filePath lineNumber ty]
    else []
  funcs ++ classes ++ imports ++ exports ++ routes ++ sqls ++ vis

/-- `SymbolDetector::detect_in_chunk`. -/
def detectInChunk (content : String) (filePath : String) (startLine : Nat) :
    List Symbol :=
  ((rustLines content).enum.map
    (fun p => detectLine filePath (startLine + p.1) p.2.data)).flatten

/-! ## Metadata store and index engine (`src/db/mod.rs`, `src/index/engine.rs`)

The SQLite store is modelled as in-memory lists of rows; the Tantivy index
as a list of committed documents plus the buffered writer's pending
operations (document adds and `delete_all_documents`), applied in order at
`commit`. -/

/-- A `files` table row (`db/models.rs::FileMetadata`, `id` omitted). -/
structure FileRec where
  filePath : String
  fileSize : Nat
  lastModified : Int
  language : Option String
  deriving DecidableEq, Repr

/-- A Tantivy document for one chunk (`Indexer::add_chunk_to_tantivy`). -/
structure TDoc where
  filePath : String
  content : String
  startLine : Nat
  endLine : Nat
  contentHash : String
  lastModified : Int
  deriving DecidableEq, Repr

/-- The metadata store: `files`, `chunks`, `symbols` tables. -/
structure DbState where
  files : List FileRec
  chunks : List Chunk
  symbols : List Symbol
  deriving DecidableEq, Repr

/-- A buffered Tantivy writer operation. -/
inductive TantivyOp where
  | addDoc (d : TDoc)
  | deleteAll
  deriving DecidableEq, Repr

/-- Engine state: the metadata store, the committed full-text documents,
and the writer's pending operations. -/
structure EngineState where
  db : DbState
  committed : List TDoc
  pending : List TantivyOp
  deriving DecidableEq, Repr

/-- `Database::needs_reindex`: look up the stored `last_modified` for the
path; a missing row or a differing timestamp means reindex. -/
def needsReindex (db : DbState) (path : String) (currentModified : Int) : Bool :=
  match db.files.find? (fun f => f.filePath == path) with
  | none => true
  | some r => r.lastModified != currentModified

/-- `Database::insert_file` (`INSERT OR REPLACE` on the unique
`file_path`): drop any existing row for the path and append the new one.
(In `index_file` the chunks and symbols for the path are already deleted
when this runs, so the `ON DELETE CASCADE` fired by `REPLACE` deletes
nothing.) -/
def insertFile (db : DbState) (f : FileRec) : DbState :=
  { db with files := db.files.filter (fun r => !(r.filePath == f.filePath)) ++ [f] }

/-- `Database::delete_file_chunks`. -/
def deleteFileChunks (db : DbState) (path : String) : DbState :=
  { db with chunks := db.chunks.filter (fun c => !(c.filePath == path)) }

/-- `Database::delete_file_symbols`. -/
def deleteFileSymbols (db : DbState) (path : String) : DbState :=
  { db with symbols := db.symbols.filter (fun s => !(s.filePath == path)) }

/-- `Database::find_symbols_by_name` (`SELECT … WHERE symbol_name = ?`). -/
def findSymbolsByName (db : DbState) (name : String) : List Symbol :=
  db.symbols.filter (fun s => s.symbolName == name)

/-- `Database::clear_all`: `DELETE FROM symbols`, then `DELETE FROM
chunks`, then `DELETE FROM files`. -/
def clearAll (db : DbState) : DbState :=
  let db := { db with symbols := [] }
  let db := { db with chunks := [] }
  { db with files := [] }

/-- `Database::get_stats` row counts. -/
def getStatsCounts (db : DbState) : Nat × Nat × Nat :=
  (db.files.length, db.chunks.length, db.symbols.length)

/-- `Indexer::add_chunk_to_tantivy`: build the document for a chunk. -/
def chunkToDoc (c : Chunk) : TDoc :=
  { filePath := c.filePath, content := c.content, startLine := c.startLine
    endLine := c.endLine, contentHash := c.contentHash
    lastModified := c.lastModified }

/-- `IndexWriter::commit`: apply the pending operations in order to the
committed document set. -/
def commitWriter (st : EngineState) : EngineState :=
  { st with
    committed :=
      st.pending.foldl
        (fun docs op =>
          match op with
          | TantivyOp.addDoc d => docs ++ [d]
          | TantivyOp.deleteAll => [])
        st.committed
    pending := [] }

/-- `Indexer::index_file` for a file with the given on-disk metadata and
content.  Returns `false` (`Unchanged`) without touching any state when
`needs_reindex` is false; otherwise deletes the chunk and symbol rows for
the path, upserts the file record, chunks the content, buffers one Tantivy
document per chunk (never deleting the path's previous documents), and
batch-inserts the new chunk and symbol rows. -/
def indexFile (h : String → String) (st : EngineState) (path : String)
    (fileSize : Nat) (language : Option String) (lastModified : Int)
    (content : String) : Bool × EngineState :=
  if !needsReindex st.db path lastModified then (false, st)
  else
    let db := deleteFileChunks st.db path
    let db := deleteFileSymbols db path
    let db := insertFile db
      { filePath := path, fileSize := fileSize, lastModified := lastModified
        language := language }
    let chunks := chunkFile h path content lastModified
    let allSymbols :=
      (chunks.map (fun c => detectInChunk c.content path c.startLine)).flatten
    let pending := st.pending ++ chunks.map (fun c => TantivyOp.addDoc (chunkToDoc c))
    let db := { db with chunks := db.chunks ++ chunks }
    let db := { db with symbols := db.symbols ++ allSymbols }
    (true, { db := db, committed := st.committed, pending := pending })

/-- `Indexer::clear_index`: buffer `delete_all_documents`, commit the
writer, then drop and reopen the database.  Reopening runs
`CREATE TABLE IF NOT EXISTS` and the pragmas only, so existing rows in
`files`, `chunks` and `symbols` persist: the metadata store is returned
unchanged. -/
def clearIndex (st : EngineState) : EngineState :=
  let st := { st with pending := st.pending ++ [TantivyOp.deleteAll] }
  let st := commitWriter st
  { st with db := st.db }

/-- The empty engine state (fresh `.flashgrep` directory). -/
def emptyEngine : EngineState :=
  { db := { files := [], chunks := [], symbols := [] }, committed := [], pending := [] }

/-! ## Query planner fetch limit (`src/search/mod.rs`) -/

/-- `usize::MAX` on a 64-bit target. -/
def USIZE_MAX : Nat := 2 ^ 64 - 1

/-- `usize::saturating_add`. -/
def satAdd (a b : Nat) : Nat := min (a + b) USIZE_MAX

/-- `usize::saturating_mul`. -/
def satMul (a b : Nat) : Nat := min (a * b) USIZE_MAX

/-- `Searcher::query_with_options` candidate budget:
`target = offset.saturating_add(limit)`,
`fetch_limit = target.saturating_mul(30).max(target).min(10_000)`. -/
def fetchLimit (limit offset : Nat) : Nat :=
  let target := satAdd offset limit
  min (max (satMul target 30) target) 10000

/-- The candidate fetch: `TopDocs::with_limit(fetch_limit)` over the
score-sorted document list (the list is assumed sorted by descending
score, which is the library's contract). -/
def fetchCandidates (docs : List TDoc) (limit offset : Nat) : List TDoc :=
  docs.take (fetchLimit limit offset)

/-- The bound claimed by the spec: `min(10 000, max(limit·30, offset+limit))`.
Modelled from the spec sentence, for comparison with `fetchLimit`. -/
def specFetchBound (limit offset : Nat) : Nat :=
  min 10000 (max (limit * 30) (offset + limit))

/-! ## Ignore-pattern glob matching (`src/index/scanner.rs`) -/

/-- The inner `while let Some(c) = path_chars.next()` of `glob_match`'s `*`
arm: consume path characters up to and including the first occurrence of
`np` (or the whole path if `np` never occurs). -/
def dropThrough (np : Char) : List Char → List Char
  | [] => []
  | c :: rest => if c = np then rest else dropThrough np rest

/-- `FlashgrepIgnore::glob_match`, with the pattern as the (structurally
decreasing) first argument: `*` at the end of the pattern matches
everything; an interior `*` skips path characters through the first
occurrence of the next pattern character; `?` consumes exactly one path
character; anything else must match literally. -/
def globMatchAux : List Char → List Char → Bool
  | [], path => path.isEmpty
  | p :: ps, path =>
    match p with
    | '*' =>
      (match ps with
       | [] => true
       | np :: _ => globMatchAux ps (dropThrough np path))
    | '?' =>
      (match path with
       | [] => false
       | _ :: rest => globMatchAux ps rest)
    | c =>
      (match path with
       | [] => false
       | pc :: rest => if pc = c then globMatchAux ps rest else false)

/-- `FlashgrepIgnore::glob_match on (path, pattern)`. -/
def globMatch (path pattern : List Char) : Bool := globMatchAux pattern path

/-- Drop one leading path segment (through the next `/`, or all of a
segment-final path). -/
def dropSegment : List Char → List Char
  | [] => []
  | c :: rest => if c = '/' then rest else dropSegment rest

/-- Fuel-based worker for the spec's glob semantics; every step shrinks
`path.length + pattern.length`, so fuel `path.length + pattern.length + 1`
always suffices. -/
def specGlobGo : Nat → List Char → List Char → Bool
  | 0, _, _ => false
  | _ + 1, path, [] => path.isEmpty
  | fuel + 1, path, '*' :: '*' :: '/' :: ps =>
    specGlobGo fuel path ps ||
      (match path with
       | [] => false
       | _ :: _ => specGlobGo fuel (dropSegment path) ('*' :: '*' :: '/' :: ps))
  | fuel + 1, path, '*' :: ps =>
    specGlobGo fuel path ps ||
      (match path with
       | c :: rest => if c = '/' then false else specGlobGo fuel rest ('*' :: ps)
       | [] => false)
  | fuel + 1, path, '?' :: ps =>
    (match path with
     | [] => false
     | _ :: rest => specGlobGo fuel rest ps)
  | fuel + 1, path, c :: ps =>
    (match path with
     | [] => false
     | pc :: rest => if pc = c then specGlobGo fuel rest ps else false)

/-- Glob semantics as the spec describes them, for comparison with
`globMatch`.  Modelled from the spec: `*` matches any run of
non-separator characters within a single segment (never across `/`),
`?` matches exactly one character, and a `**/` prefix matches any number
of path segments. -/
def specGlobMatch (path pattern : List Char) : Bool :=
  specGlobGo (path.length + pattern.length + 1) path pattern

/-! ## Bounded reads and precondition writes (`src/mcp/code_io.rs`) -/

/-- `MAX_MCP_READ_BYTES` (192 KiB). -/
def MAX_MCP_READ_BYTES : Nat := 192 * 1024

/-- `MAX_MCP_WRITE_REPLACEMENT_BYTES` (128 KiB). -/
def MAX_MCP_WRITE_REPLACEMENT_BYTES : Nat := 128 * 1024

/-- Optional read budgets (`Limits` in code_io.rs). -/
structure Limits where
  maxLines : Option Nat
  maxBytes : Option Nat
  maxTokens : Option Nat
  deriving DecidableEq, Repr

/-- `BoundedContent` (code_io.rs). -/
structure BoundedContent where
  includedLines : List (Nat × String)
  firstLine : Nat
  lastLine : Nat
  consumedLines : Nat
  consumedBytes : Nat
  consumedTokens : Nat
  truncated : Bool
  nextStartLine : Option Nat
  deriving DecidableEq, Repr

/-- Number lines `n, n+1, …` (models
`lines[start-1..end].iter().enumerate().map(|(idx, l)| (start+idx, l))`). -/
def numberFrom (n : Nat) : List String → List (Nat × String)
  | [] => []
  | l :: ls => (n, l) :: numberFrom (n + 1) ls

/-- `read_file_slice` (slice mode), on a file already split into lines.
Mirrors the source's validations: `start_line = 0` is rejected, an empty
file serves the empty list, `start_line` past EOF is rejected, the end is
the requested end clamped to EOF (EOF when absent), and an end below the
start is rejected. -/
def readFileSlice (allLines : List String) (startLine : Nat)
    (requestedEndLine : Option Nat) : Except String (List (Nat × String)) :=
  if startLine = 0 then Except.error "start_line must be greater than 0"
  else if allLines.isEmpty then Except.ok []
  else if startLine > allLines.length then
    Except.error "start_line exceeds file line count"
  else
    let endLine := min (requestedEndLine.getD allLines.length) allLines.length
    if endLine < startLine then
      Except.error "end_line is less than start_line"
    else
      Except.ok
        (numberFrom startLine
          ((allLines.drop (startLine - 1)).take (endLine - startLine + 1)))

/-- The greedy inclusion loop of `apply_budgets`.  The source accumulates
the included lines in a vector; only its emptiness and length feed the
budget conditions, so the loop is modelled by the count of included lines
(`inclCount`), returning how many further lines are included together with
the final byte and token counters.  The included lines are the
corresponding prefix. -/
def budgetLoop (lims : Limits) : List (Nat × String) → Nat → Nat → Nat →
    Nat × Nat × Nat
  | [], _, bytes, tokens => (0, bytes, tokens)
  | (_, line) :: rest, inclCount, bytes, tokens =>
    let lineBytes := strBytes line
    let lineTokens := estimate_tokens line
    let sepBytes := if inclCount = 0 then 0 else 1
    let nextLines := inclCount + 1
    let nextBytes := bytes + lineBytes + sepBytes
    let nextTokens := tokens + lineTokens
    let linesOk := match lims.maxLines with | none => true | some m => nextLines ≤ m
    let bytesOk := match lims.maxBytes with | none => true | some m => nextBytes ≤ m
    let tokensOk := match lims.maxTokens with | none => true | some m => nextTokens ≤ m
    if linesOk && bytesOk && tokensOk then
      let r := budgetLoop lims rest nextLines nextBytes nextTokens
      (r.1 + 1, r.2)
    else (0, bytes, tokens)

/-- `apply_budgets`: `none` models the `payload_too_large` outcome (a
non-empty input whose first line already exceeds a budget). -/
def applyBudgets (lines : List (Nat × String)) (lims : Limits) :
    Option BoundedContent :=
  if lines.isEmpty then
    some { includedLines := [], firstLine := 1, lastLine := 0
           consumedLines := 0, consumedBytes := 0, consumedTokens := 0
           truncated := false, nextStartLine := none }
  else
    let r := budgetLoop lims lines 0 0 0
    let k := r.1
    let included := lines.take k
    if k = 0 then none
    else
      let truncated := decide (k < lines.length)
      some
        { includedLines := included
          firstLine := ((included.head?).map Prod.fst).getD 1
          lastLine := ((included.getLast?).map Prod.fst).getD 0
          consumedLines := k
          consumedBytes := r.2.1
          consumedTokens := r.2.2
          truncated := truncated
          nextStartLine :=
            if truncated then (lines.get? k).map Prod.fst else none }

/-- Outcome of a `read_code` slice call. -/
inductive ReadResult where
  | err (msg : String)
  | tooLarge
  | ok (b : BoundedContent)
  deriving DecidableEq, Repr

/-- `read_code` in slice mode: resolve the slice, then apply the budgets;
a `none` from `apply_budgets` becomes the `payload_too_large` result. -/
def readCodeSlice (fileLines : List String) (startLine : Nat)
    (requestedEndLine : Option Nat) (lims : Limits) : ReadResult :=
  match readFileSlice fileLines startLine requestedEndLine with
  | Except.error m => ReadResult.err m
  | Except.ok served =>
    match applyBudgets served lims with
    | none => ReadResult.tooLarge
    | some b => ReadResult.ok b

/-- The continuation protocol of the claim: call `read_code`, and while the
response is truncated call again passing its `continuation_start_line`;
collect the served `(line number, line)` pairs of every call in order.
`none` when any call errors or returns `payload_too_large` (the protocol
then has no continuation to follow).  Fuel-based; each successful
truncated call serves at least one line, so any fuel of at least the
slice's length suffices. -/
def collectReads (fileLines : List String) (requestedEndLine : Option Nat)
    (lims : Limits) : Nat → Nat → Option (List (Nat × String))
  | 0, _ => none
  | fuel + 1, curStart =>
    match readCodeSlice fileLines curStart requestedEndLine lims with
    | ReadResult.ok b =>
      match b.nextStartLine with
      | none => some b.includedLines
      | some ns =>
        match collectReads fileLines requestedEndLine lims fuel ns with
        | none => none
        | some rest => some (b.includedLines ++ rest)
    | _ => none

/-- One precondition mismatch entry (`check_preconditions`). -/
structure Mismatch where
  field : String
  line : Option Nat
  expected : String
  actual : String
  deriving DecidableEq, Repr

/-- The optional preconditions of `write_code`. -/
structure Precondition where
  expectedFileHash : Option String
  expectedStartLineText : Option String
  expectedEndLineText : Option String
  deriving DecidableEq, Repr

/-- `check_preconditions`: compare each supplied field against the current
file state; `none` when no precondition was supplied or nothing
mismatches, otherwise the list of mismatches in source order (hash, start
line text, end line text). -/
def checkPreconditions (precondition : Option Precondition)
    (lines : List String) (currentHash : String) (startLine endLine : Nat) :
    Option (List Mismatch) :=
  match precondition with
  | none => none
  | some pre =>
    let m1 :=
      match pre.expectedFileHash with
      | some expected =>
        if expected ≠ currentHash then
          [Mismatch.mk "expected_file_hash" none expected currentHash]
        else []
      | none => []
    let m2 :=
      match pre.expectedStartLineText with
      | some expected =>
        let actual := (lines.get? (startLine - 1)).getD ""
        if expected ≠ actual then
          [Mismatch.mk "expected_start_line_text" (some startLine) expected actual]
        else []
      | none => []
    let m3 :=
      match pre.expectedEndLineText with
      | some expected =>
        let actual := (lines.get? (endLine - 1)).getD ""
        if expected ≠ actual then
          [Mismatch.mk "expected_end_line_text" (some endLine) expected actual]
        else []
      | none => []
    let mismatches := m1 ++ m2 ++ m3
    if mismatches.isEmpty then none else some mismatches

/-- Outcome of a single-shot `write_code` call. -/
inductive WriteOutcome where
  | payloadTooLarge
  | configError (msg : String)
  | preconditionFailed (mismatches : List Mismatch)
  | ok (hashBefore hashAfter : String)
  deriving DecidableEq, Repr

/-- Single-shot `write_code` (no `continuation_id`), modelled as a pure
function from the target file's current content to the outcome and the
file's content afterwards (unchanged on every non-`ok` outcome).  Mirrors
the source's validation order: replacement size gate, range sanity, read,
empty-file gate, end-of-file gate, preconditions, then the splice. -/
def writeCode (h : String → String) (originalContent : String)
    (startLine endLine : Nat) (replacement : String)
    (precondition : Option Precondition) : WriteOutcome × String :=
  if strBytes replacement > MAX_MCP_WRITE_REPLACEMENT_BYTES then
    (WriteOutcome.payloadTooLarge, originalContent)
  else if startLine = 0 ∨ endLine = 0 ∨ startLine > endLine then
    (WriteOutcome.configError
      "Invalid range: start_line and end_line must be >= 1 and start_line <= end_line",
     originalContent)
  else
    let originalHash := h originalContent
    let hadTrailingNewline := originalContent.endsWith "\n"
    let originalLines := rustLines originalContent
    if originalLines.isEmpty then
      (WriteOutcome.configError "Cannot apply line-range write to empty file",
       originalContent)
    else if endLine > originalLines.length then
      (WriteOutcome.configError
        ("Invalid range: end_line " ++ toString endLine ++
          " exceeds file line count " ++ toString originalLines.length),
       originalContent)
    else
      match checkPreconditions precondition originalLines originalHash
          startLine endLine with
      | some conflict => (WriteOutcome.preconditionFailed conflict, originalContent)
      | none =>
        let replacementLines :=
          if replacement.isEmpty then [] else rustSplitNL replacement
        let newLines :=
          originalLines.take (startLine - 1) ++ replacementLines ++
            originalLines.drop endLine
        let newContent :=
          joinNL newLines ++ (if hadTrailingNewline then "\n" else "")
        (WriteOutcome.ok originalHash (h newContent), newContent)

/-! ## Concrete instances used by witnesses and counterexamples -/

/-- A concrete stand-in for the SHA-256 parameter in closed evaluations. -/
def exHash : String → String := fun _ => "H"

/-! ## Claim C10 — `needs_reindex` compares only the modification time -/

/-- C10: `needs_reindex(path, current_mtime)` returns false iff a file row
for the path exists whose stored `last_modified` equals `current_mtime`;
and whenever it returns false, `index_file` returns `Unchanged` with the
whole engine state (metadata store, committed documents, pending writer
operations) untouched, regardless of the file's content. -/
theorem claim_C10 : ∀ (h : String → String) (st : EngineState) (path : String)
    (fileSize : Nat) (language : Option String) (m : Int) (content : String),
    (needsReindex st.db path m = false ↔
      ∃ r, st.db.files.find? (fun f => f.filePath == path) = some r ∧
        r.lastModified = m) ∧
    (needsReindex st.db path m = false →
      indexFile h st path fileSize language m content = (false, st)) := by
  intro h st path fileSize language m content
  constructor
  · unfold needsReindex
    cases hfind : st.db.files.find? (fun f => f.filePath == path) with
    | none => simp [hfind]
    | some r => simp [hfind, bne_eq_false_iff_eq]
  · intro hfalse
    simp [indexFile, hfalse]

def c10State : EngineState :=
  { db := { files := [⟨"a.rs", 3, 5, some "rust"⟩], chunks := [], symbols := [] }
    committed := [], pending := [] }

/-- Witness for C10: a stored row with `last_modified = 5` and a call at
mtime 5 but different content returns `Unchanged` and leaves the state as
it was. -/
theorem claim_C10_witness :
    indexFile exHash c10State "a.rs" 7 (some "rust") 5 "totally new content\n" =
      (false, c10State) :=
  (claim_C10 exHash c10State "a.rs" 7 (some "rust") 5 "totally new content\n").2
    (by decide)

/-! ## Claim C1 — full-text documents are *not* deleted on reindex -/

def c1Step1 : EngineState :=
  (indexFile exHash emptyEngine "f.rs" 2 (some "rust") 1 "a\n").2
def c1Step2 : EngineState := commitWriter c1Step1
def c1Step3 : EngineState :=
  (indexFile exHash c1Step2 "f.rs" 2 (some "rust") 2 "b\n").2
def c1Final : EngineState := commitWriter c1Step3

/-- C1 (failing-input evaluation): indexing `f.rs` (content `"a\n"`,
mtime 1), committing, reindexing the same path (content `"b\n"`, mtime 2)
and committing again leaves the full-text index holding the document of
the *prior* run alongside the new one — `index_file` issues no full-text
deletion — while the metadata chunks were correctly replaced. -/
theorem claim_C1_stale_docs_survive :
    (indexFile exHash emptyEngine "f.rs" 2 (some "rust") 1 "a\n").1 = true ∧
    (indexFile exHash c1Step2 "f.rs" 2 (some "rust") 2 "b\n").1 = true ∧
    c1Final.committed.map (fun d => (d.content, d.lastModified)) =
      [("a", 1), ("b", 2)] ∧
    c1Final.db.chunks.map (fun c => (c.content, c.lastModified)) = [("b", 2)] := by
  decide

/-! ## Claim C6 — `clear_index` does not truncate the metadata tables -/

def c6Chunk : Chunk := Chunk.make exHash "f.rs" 1 1 "a" 1
def c6State : EngineState :=
  { db := { files := [⟨"f.rs", 2, 1, some "rust"⟩], chunks := [c6Chunk]
            symbols := [⟨"a", "f.rs", 1, SymbolType.kFunction⟩] }
    committed := [chunkToDoc c6Chunk], pending := [] }

/-- C6 (failing-input evaluation): `clear_index` deletes all full-text
documents and commits, but then merely reopens the database, so the
`files`/`chunks`/`symbols` rows all survive; the truncation helper
`Database::clear_all` (which does empty the three tables) is never
called by `clear_index`. -/
theorem claim_C6_tables_survive :
    (clearIndex c6State).committed = [] ∧
    (clearIndex c6State).db = c6State.db ∧
    getStatsCounts (clearIndex c6State).db = (1, 1, 1) ∧
    getStatsCounts (clearAll c6State.db) = (0, 0, 0) := by
  decide

/-! ## Claim C7 — candidate fetch limit -/

def c7Doc : TDoc := ⟨"f.rs", "x", 1, 1, "h", 0⟩

/-- C7 counterexample: with `limit = 1`, `offset = 5` the spec's bound is
`min(10 000, max(30, 6)) = 30`, but the code computes
`fetch_limit = (5+1)·30 = 180` and with 31 candidates fetches 31 > 30. -/
theorem claim_C7_counterexample :
    ¬ ((fetchCandidates (List.replicate 31 c7Doc) 1 5).length ≤
        specFetchBound 1 5) := by
  decide

/-- C7 (amended): the planner fetches at most
`min(10 000, max((offset+limit)·30, offset+limit))` candidates — the
multiplier applies to `offset + limit`, not to `limit` alone. -/
theorem claim_C7_amended : ∀ (docs : List TDoc) (limit offset : Nat),
    (fetchCandidates docs limit offset).length ≤
      min (max (satMul (satAdd offset limit) 30) (satAdd offset limit)) 10000 := by
  intro docs limit offset
  simpa [fetchCandidates, fetchLimit] using
    (List.length_take_le (fetchLimit limit offset) docs)

/-! ## Claim C9 — `.flashgrepignore` wildcard semantics -/

/-- C9 counterexample: `glob_match("a/b", "a*")` is true — a trailing `*`
matches the rest of the path *across* the `/` separator — while the
spec's segment-bounded semantics rejects it. -/
theorem claim_C9_counterexample :
    globMatch "a/b".data "a*".data = true ∧
    specGlobMatch "a/b".data "a*".data = false := by
  decide

/-- C9 (amended): in `glob_match`, `?` consumes exactly one character of
any kind (including `/`); a `*` at the end of the pattern matches the
entire remainder of the path, separators included; an interior `*`
consumes path characters up to and including the first occurrence of the
next pattern character (also across `/`); and `**/` gets no special
multi-segment handling (the spec semantics accepts `x/y/foo` against
`**/foo`, the code rejects it). -/
theorem claim_C9_amended :
    (∀ (ps : List Char), globMatch [] ('?' :: ps) = false) ∧
    (∀ (c : Char) (path ps : List Char),
      globMatch (c :: path) ('?' :: ps) = globMatch path ps) ∧
    (∀ (path : List Char), globMatch path ['*'] = true) ∧
    (∀ (path : List Char) (np : Char) (ps : List Char),
      globMatch path ('*' :: np :: ps) = globMatch (dropThrough np path) (np :: ps)) ∧
    (globMatch "x/y/foo".data "**/foo".data = false ∧
      specGlobMatch "x/y/foo".data "**/foo".data = true) := by
  refine ⟨fun ps => rfl, fun c path ps => rfl, fun path => rfl,
    fun path np ps => rfl, by decide⟩

/-! ## Claim C8 — symbol lookup for `pub struct Point` -/

def c8Content : String := "pub struct Point \x7b\n x: f64,\n\x7d\n"
def c8State : EngineState :=
  (indexFile exHash emptyEngine "lib.rs" 34 (some "rust") 1 c8Content).2

/-- C8 counterexample: after indexing `lib.rs`, `get_symbol("Point")`
does *not* return exactly one entry. -/
theorem claim_C8_counterexample :
    ¬ ((findSymbolsByName c8State.db "Point").length = 1) := by
  decide

/-- C8 (amended): `get_symbol("Point")` returns exactly two entries, both
at line 1 — the struct entry the claim expects, plus a `public` entry
produced by the visibility detector, whose name extractor also captures
`Point` from `pub struct Point`. -/
theorem claim_C8_amended :
    findSymbolsByName c8State.db "Point" =
      [⟨"Point", "lib.rs", 1, SymbolType.kStruct⟩,
       ⟨"Point", "lib.rs", 1, SymbolType.kPublic⟩] := by
  decide

/-! ## Claim C2 — `write_code` preconditions -/

def c2Pre : Precondition :=
  { expectedFileHash := none, expectedStartLineText := some "b"
    expectedEndLineText := none }

/-- C2 counterexample: for the one-line file `"a\n"`, a call with
`start_line = 1`, `end_line = 2` and the mismatching precondition
`expected_start_line_text = "b"` does *not* return `precondition_failed`:
the end-of-file validation fires first and the call returns a `Config`
error (the file is still left unchanged). -/
theorem claim_C2_counterexample :
    checkPreconditions (some c2Pre) (rustLines "a\n") (exHash "a\n") 1 2 =
      some [⟨"expected_start_line_text", some 1, "b", "a"⟩] ∧
    writeCode exHash "a\n" 1 2 "z" (some c2Pre) =
      (WriteOutcome.configError
        "Invalid range: end_line 2 exceeds file line count 1", "a\n") := by
  decide

/-- C2 (amended): for every `write_code` call that supplies a precondition
object and passes the validations that precede the precondition check
(replacement within `MAX_WRITE_REPLACEMENT_BYTES`, `1 ≤ start_line ≤
end_line ≤ file line count`, non-empty file), a mismatch in any supplied
field makes the call return `precondition_failed` with the conflict
listing the mismatches, and the file's bytes are left unchanged. -/
theorem claim_C2_amended : ∀ (h : String → String) (orig : String)
    (startLine endLine : Nat) (replacement : String) (pre : Precondition)
    (ms : List Mismatch),
    strBytes replacement ≤ MAX_MCP_WRITE_REPLACEMENT_BYTES →
    1 ≤ startLine → startLine ≤ endLine →
    rustLines orig ≠ [] →
    endLine ≤ (rustLines orig).length →
    checkPreconditions (some pre) (rustLines orig) (h orig) startLine endLine =
      some ms →
    writeCode h orig startLine endLine replacement (some pre) =
      (WriteOutcome.preconditionFailed ms, orig) := by
  intro h orig startLine endLine replacement pre ms hsize hs hse hne hend hpre
  have hA : ¬ (strBytes replacement > MAX_MCP_WRITE_REPLACEMENT_BYTES) := by omega
  have hB : ¬ (startLine = 0 ∨ endLine = 0 ∨ startLine > endLine) := by omega
  have hC : (rustLines orig).isEmpty = false := by
    simpa [List.isEmpty_iff] using hne
  have hD : ¬ (endLine > (rustLines orig).length) := by omega
  simp [writeCode, hA, hB, hC, hD, hpre]

def c2WitnessPre : Precondition :=
  { expectedFileHash := none, expectedStartLineText := some "different"
    expectedEndLineText := none }

/-- Witness for C2 (amended): the spec's S5 scenario — replacing line 2 of
`"line1\nline2\nline3\n"` under `expected_start_line_text = "different"`
fails with the conflict and leaves the content unchanged. -/
theorem claim_C2_witness :
    writeCode exHash "line1\nline2\nline3\n" 2 2 "updated" (some c2WitnessPre) =
      (WriteOutcome.preconditionFailed
        [⟨"expected_start_line_text", some 2, "different", "line2"⟩],
       "line1\nline2\nline3\n") :=
  claim_C2_amended exHash "line1\nline2\nline3\n" 2 2 "updated" c2WitnessPre
    [⟨"expected_start_line_text", some 2, "different", "line2"⟩]
    (by decide) (by decide) (by decide) (by decide) (by decide) (by decide)

/-! ## Chunker structure lemmas (claims C4 and C5) -/

theorem fcbLoop_stopped (lines : List String) (maxEnd : Nat) (fuel i : Nat)
    (d : Int) (lb : Option Nat) (acc : Nat) (hge : ¬ i < maxEnd) :
    fcbLoop lines maxEnd fuel i d lb acc = acc := by
  cases fuel <;> simp [fcbLoop, hge]

theorem fcbLoop_bounds (lines : List String) (maxEnd : Nat) :
    ∀ (fuel i : Nat) (d : Int) (lb : Option Nat) (acc : Nat),
    maxEnd ≤ i + fuel → i < maxEnd →
    i < fcbLoop lines maxEnd fuel i d lb acc ∧
      fcbLoop lines maxEnd fuel i d lb acc ≤ maxEnd := by
  intro fuel
  induction fuel with
  | zero => intro i d lb acc hfe hlt; omega
  | succ n ih =>
    intro i d lb acc hfe hlt
    simp only [fcbLoop, if_pos hlt]
    split <;> split
    · omega
    · rcases Nat.lt_or_ge (i + 1) maxEnd with h1 | h1
      · have := ih (i + 1) (d + lineDepth (lines.getD i "")) (some i) (i + 1)
          (by omega) h1
        omega
      · rw [fcbLoop_stopped lines maxEnd n (i + 1) _ _ (i + 1) (by omega)]
        omega
    · omega
    · rcases Nat.lt_or_ge (i + 1) maxEnd with h1 | h1
      · have := ih (i + 1) (d + lineDepth (lines.getD i "")) lb (i + 1)
          (by omega) h1
        omega
      · rw [fcbLoop_stopped lines maxEnd n (i + 1) _ _ (i + 1) (by omega)]
        omega

theorem findChunkBoundary_bounds (lines : List String) (s : Nat)
    (hlt : s < lines.length) :
    s < (findChunkBoundary lines s).1 ∧
      (findChunkBoundary lines s).1 ≤ lines.length := by
  have hmax : s < min (s + MAX_CHUNK_LINES) lines.length := by
    simp only [MAX_CHUNK_LINES]; omega
  have hb := fcbLoop_bounds lines (min (s + MAX_CHUNK_LINES) lines.length)
    (min (s + MAX_CHUNK_LINES) lines.length - s) s 0 none s (by omega) hmax
  simp only [findChunkBoundary]
  rw [if_neg (by omega)]
  omega

/-- The chunks produced from position `s` onwards tile `[s, length)`:
each chunk starts right after the previous boundary, makes progress,
stays within the file, carries the joined slice as content, and the rest
continues from its end. -/
def ChunksFrom (lines : List String) : Nat → List Chunk → Prop
  | s, [] => lines.length ≤ s
  | s, c :: cs =>
    c.startLine = s + 1 ∧ s < c.endLine ∧ c.endLine ≤ lines.length ∧
    c.content = joinNL ((lines.drop s).take (c.endLine - s)) ∧
    ChunksFrom lines c.endLine cs

theorem chunkLoop_chunksFrom (h : String → String) (fp : String) (m : Int)
    (lines : List String) :
    ∀ (fuel s : Nat), lines.length ≤ s + fuel →
    ChunksFrom lines s (chunkLoop h fp lines m fuel s) := by
  intro fuel
  induction fuel with
  | zero =>
    intro s hle
    simp only [chunkLoop, ChunksFrom]
    omega
  | succ n ih =>
    intro s hle
    by_cases hlt : s < lines.length
    · have hb := findChunkBoundary_bounds lines s hlt
      simp only [chunkLoop, if_pos hlt]
      exact ⟨rfl, hb.1, hb.2, rfl, ih (findChunkBoundary lines s).1 (by omega)⟩
    · simp only [chunkLoop, if_neg hlt, ChunksFrom]
      omega

theorem chunksFrom_mem (lines : List String) :
    ∀ (cs : List Chunk) (s : Nat), ChunksFrom lines s cs →
    ∀ c ∈ cs, s < c.startLine ∧ c.startLine ≤ c.endLine ∧
      c.endLine ≤ lines.length := by
  intro cs
  induction cs with
  | nil => intro s _ c hc; cases hc
  | cons c0 rest ih =>
    intro s hcf c hc
    obtain ⟨h1, h2, h3, _, h5⟩ := hcf
    rcases List.mem_cons.mp hc with hhd | htl
    · subst hhd; omega
    · have := ih c0.endLine h5 c htl
      omega

theorem chunksFrom_head (lines : List String) (cs : List Chunk)
    (hcf : ChunksFrom lines 0 cs) (hne : cs ≠ []) :
    cs.head?.map (fun c => c.startLine) = some 1 := by
  cases cs with
  | nil => exact absurd rfl hne
  | cons c rest => simpa using hcf.1

theorem chunksFrom_adjacent (lines : List String) :
    ∀ (cs : List Chunk) (s : Nat), ChunksFrom lines s cs →
    ∀ i, i + 1 < cs.length →
      (cs[i+1]?).map (fun c => c.startLine) =
        (cs[i]?).map (fun c => c.endLine + 1) := by
  intro cs
  induction cs with
  | nil => intro s _ i hi; simp at hi
  | cons c0 rest ih =>
    intro s hcf i hi
    obtain ⟨h1, h2, h3, h4, h5⟩ := hcf
    cases i with
    | zero =>
      cases rest with
      | nil => simp at hi
      | cons c1 rest' => simpa using h5.1
    | succ j =>
      have := ih c0.endLine h5 j (by simpa using hi)
      simpa using this

theorem joinNL_append : ∀ (A B : List String), A ≠ [] → B ≠ [] →
    joinNL (A ++ B) = joinNL A ++ "\n" ++ joinNL B := by
  intro A
  induction A with
  | nil => intro B hA _; exact absurd rfl hA
  | cons a A' ih =>
    intro B hA hB
    cases A' with
    | nil =>
      cases B with
      | nil => exact absurd rfl hB
      | cons b B' => simp [joinNL]
    | cons a2 A'' =>
      have hrec := ih B (by simp) hB
      calc joinNL ((a :: a2 :: A'') ++ B)
          = a ++ "\n" ++ joinNL ((a2 :: A'') ++ B) := by
            rw [List.cons_append]; simp [joinNL]
        _ = a ++ "\n" ++ (joinNL (a2 :: A'') ++ "\n" ++ joinNL B) := by
            rw [hrec]
        _ = joinNL (a :: a2 :: A'') ++ "\n" ++ joinNL B := by
            show _ = a ++ "\n" ++ joinNL (a2 :: A'') ++ "\n" ++ joinNL B
            simp [String.append_assoc]

theorem chunksFrom_join (lines : List String) :
    ∀ (cs : List Chunk) (s : Nat), ChunksFrom lines s cs →
    joinNL (cs.map (fun c => c.content)) = joinNL (lines.drop s) := by
  intro cs
  induction cs with
  | nil =>
    intro s hle
    have hdrop : lines.drop s = [] := List.drop_eq_nil_of_le hle
    simp [joinNL, hdrop]
  | cons c0 rest ih =>
    intro s hcf
    obtain ⟨h1, h2, h3, h4, h5⟩ := hcf
    have hIH := ih c0.endLine h5
    have hsplit : lines.drop s =
        (lines.drop s).take (c0.endLine - s) ++ lines.drop c0.endLine := by
      have hdd : lines.drop c0.endLine = (lines.drop s).drop (c0.endLine - s) := by
        rw [List.drop_drop]; congr 1; omega
      rw [hdd, List.take_append_drop]
    cases rest with
    | nil =>
      have hnil : lines.drop c0.endLine = [] := List.drop_eq_nil_of_le h5
      rw [hsplit, hnil, List.append_nil]
      simp [joinNL, h4]
    | cons c1 rest' =>
      have hmem := chunksFrom_mem lines (c1 :: rest') c0.endLine h5 c1
        (List.mem_cons_self _ _)
      have hne1 : (lines.drop s).take (c0.endLine - s) ≠ [] := by
        have : ((lines.drop s).take (c0.endLine - s)).length =
            min (c0.endLine - s) (lines.length - s) := by
          simp [List.length_take]
        intro hcon
        rw [hcon] at this
        simp at this
        omega
      have hne2 : lines.drop c0.endLine ≠ [] := by
        intro hcon
        have : (lines.drop c0.endLine).length = lines.length - c0.endLine := by
          simp
        rw [hcon] at this
        simp at this
        omega
      calc joinNL ((c0 :: c1 :: rest').map (fun c => c.content))
          = c0.content ++ "\n" ++ joinNL ((c1 :: rest').map (fun c => c.content)) := by
            simp [joinNL]
        _ = joinNL ((lines.drop s).take (c0.endLine - s)) ++ "\n" ++
              joinNL (lines.drop c0.endLine) := by rw [h4, hIH]
        _ = joinNL ((lines.drop s).take (c0.endLine - s) ++
              lines.drop c0.endLine) := (joinNL_append _ _ hne1 hne2).symm
        _ = joinNL (lines.drop s) := by rw [← hsplit]

/-- C4: for every file content, the chunks of `Chunker::chunk_file` are
contiguous and non-overlapping — every chunk satisfies
`1 ≤ start_line ≤ end_line`, the first chunk starts at line 1, each
subsequent chunk starts at the previous chunk's `end_line + 1` — and
joining the chunk contents in order reproduces the file's lines. -/
theorem claim_C4 : ∀ (h : String → String) (fp content : String) (m : Int),
    (∀ c ∈ chunkFile h fp content m,
      1 ≤ c.startLine ∧ c.startLine ≤ c.endLine) ∧
    (chunkFile h fp content m ≠ [] →
      (chunkFile h fp content m).head?.map (fun c => c.startLine) = some 1) ∧
    (∀ i, i + 1 < (chunkFile h fp content m).length →
      ((chunkFile h fp content m)[i+1]?).map (fun c => c.startLine) =
        ((chunkFile h fp content m)[i]?).map (fun c => c.endLine + 1)) ∧
    joinNL ((chunkFile h fp content m).map (fun c => c.content)) =
      joinNL (rustLines content) := by
  intro h fp content m
  have hcf : ChunksFrom (rustLines content) 0 (chunkFile h fp content m) := by
    unfold chunkFile
    exact chunkLoop_chunksFrom h fp m (rustLines content)
      (rustLines content).length 0 (by omega)
  refine ⟨?_, ?_, ?_, ?_⟩
  · intro c hc
    have := chunksFrom_mem _ _ _ hcf c hc
    omega
  · intro hne
    exact chunksFrom_head _ _ hcf hne
  · intro i hi
    exact chunksFrom_adjacent _ _ _ hcf i hi
  · have := chunksFrom_join _ _ _ hcf
    simpa using this

/-- Witness for C4 at `"a\n\nb\n"` (chunks `[1,2]` and `[3,3]`). -/
theorem claim_C4_witness :
    ((chunkFile exHash "f" "a\n\nb\n" 0).head?.map (fun c => c.startLine) =
      some 1) ∧
    ((chunkFile exHash "f" "a\n\nb\n" 0)[1]?).map (fun c => c.startLine) =
      ((chunkFile exHash "f" "a\n\nb\n" 0)[0]?).map (fun c => c.endLine + 1) ∧
    (1 ≤ (Chunk.make exHash "f" 1 2 "a\n" 0).startLine ∧
      (Chunk.make exHash "f" 1 2 "a\n" 0).startLine ≤
        (Chunk.make exHash "f" 1 2 "a\n" 0).endLine) ∧
    joinNL ((chunkFile exHash "f" "a\n\nb\n" 0).map (fun c => c.content)) =
      joinNL (rustLines "a\n\nb\n") :=
  ⟨(claim_C4 exHash "f" "a\n\nb\n" 0).2.1 (by decide),
   (claim_C4 exHash "f" "a\n\nb\n" 0).2.2.1 0 (by decide),
   (claim_C4 exHash "f" "a\n\nb\n" 0).1 (Chunk.make exHash "f" 1 2 "a\n" 0)
     (by decide),
   (claim_C4 exHash "f" "a\n\nb\n" 0).2.2.2⟩

/-- Bracket depth summed over the 0-indexed line range `[s, e)` — the
depth `find_chunk_boundary` accumulates over a chunk's lines. -/
def chunkDepthSum (lines : List String) (s e : Nat) : Int :=
  ((lines.drop s).take (e - s)).foldl (fun d l => d + lineDepth l) 0

theorem foldl_lineDepth_shift : ∀ (xs : List String) (a : Int),
    xs.foldl (fun d l => d + lineDepth l) a =
      a + xs.foldl (fun d l => d + lineDepth l) 0 := by
  intro xs
  induction xs with
  | nil => intro a; simp
  | cons x xs ih =>
    intro a
    simp only [List.foldl_cons]
    rw [ih (a + lineDepth x), ih (0 + lineDepth x)]
    omega

theorem chunkDepthSum_cons (lines : List String) (i e : Nat)
    (hi : i < lines.length) (hie : i < e) :
    chunkDepthSum lines i e =
      lineDepth (lines.getD i "") + chunkDepthSum lines (i + 1) e := by
  unfold chunkDepthSum
  rw [List.drop_eq_getElem_cons hi]
  have htake : e - i = (e - (i + 1)) + 1 := by omega
  rw [htake, List.take_succ_cons, List.foldl_cons,
    foldl_lineDepth_shift, List.getD_eq_getElem lines "" hi]
  omega

theorem fcbLoop_char (lines : List String) (maxEnd : Nat)
    (hml : maxEnd ≤ lines.length) :
    ∀ (fuel i : Nat) (d : Int) (lb : Option Nat) (acc : Nat),
    maxEnd ≤ i + fuel → i < maxEnd →
    (∀ j, lb = some j → j < i) →
    (d + chunkDepthSum lines i (fcbLoop lines maxEnd fuel i d lb acc) = 0 ∧
      isBlankLine
        (lines.getD ((fcbLoop lines maxEnd fuel i d lb acc) - 1) "") = true) ∨
    fcbLoop lines maxEnd fuel i d lb acc = maxEnd := by
  intro fuel
  induction fuel with
  | zero => intro i d lb acc hfe hlt _; omega
  | succ n ih =>
    intro i d lb acc hfe hlt hlb
    have hilen : i < lines.length := by omega
    simp only [fcbLoop, if_pos hlt]
    by_cases hbl : isBlankLine (lines.getD i "") = true
    · rw [if_pos hbl]
      split
      · -- early break at i with a blank line
        rename_i hcond
        obtain ⟨hc1, _⟩ := hcond
        left
        refine ⟨?_, ?_⟩
        · rw [chunkDepthSum_cons lines i (i + 1) hilen (by omega)]
          have hz : chunkDepthSum lines (i + 1) (i + 1) = 0 := by
            simp [chunkDepthSum]
          omega
        · simpa using hbl
      · rcases Nat.lt_or_ge (i + 1) maxEnd with h1 | h1
        · have hrec := ih (i + 1) (d + lineDepth (lines.getD i "")) (some i)
            (i + 1) (by omega) h1 (fun j hj => by cases hj; omega)
          rcases hrec with ⟨hd, hb⟩ | hm
          · left
            have hbnd := fcbLoop_bounds lines maxEnd n (i + 1)
              (d + lineDepth (lines.getD i "")) (some i) (i + 1) (by omega) h1
            refine ⟨?_, hb⟩
            rw [chunkDepthSum_cons lines i _ hilen (by omega)]
            omega
          · right; exact hm
        · rw [fcbLoop_stopped lines maxEnd n (i + 1) _ _ (i + 1) (by omega)]
          right; omega
    · rw [if_neg hbl]
      split
      · -- break: the last-blank tracker equals `some i`, impossible here
        rename_i hcond
        have := hlb i hcond.2
        omega
      · rcases Nat.lt_or_ge (i + 1) maxEnd with h1 | h1
        · have hrec := ih (i + 1) (d + lineDepth (lines.getD i "")) lb
            (i + 1) (by omega) h1 (fun j hj => by have := hlb j hj; omega)
          rcases hrec with ⟨hd, hb⟩ | hm
          · left
            have hbnd := fcbLoop_bounds lines maxEnd n (i + 1)
              (d + lineDepth (lines.getD i "")) lb (i + 1) (by omega) h1
            refine ⟨?_, hb⟩
            rw [chunkDepthSum_cons lines i _ hilen (by omega)]
            omega
          · right; exact hm
        · rw [fcbLoop_stopped lines maxEnd n (i + 1) _ _ (i + 1) (by omega)]
          right; omega

theorem findChunkBoundary_char (lines : List String) (s : Nat)
    (hlt : s < lines.length) :
    (chunkDepthSum lines s (findChunkBoundary lines s).1 = 0 ∧
      isBlankLine (lines.getD ((findChunkBoundary lines s).1 - 1) "") = true) ∨
    (findChunkBoundary lines s).1 = s + MAX_CHUNK_LINES ∨
    (findChunkBoundary lines s).1 = lines.length := by
  have hmax : s < min (s + MAX_CHUNK_LINES) lines.length := by
    simp only [MAX_CHUNK_LINES]; omega
  have hb := fcbLoop_bounds lines (min (s + MAX_CHUNK_LINES) lines.length)
    (min (s + MAX_CHUNK_LINES) lines.length - s) s 0 none s (by omega) hmax
  have hc := fcbLoop_char lines (min (s + MAX_CHUNK_LINES) lines.length)
    (by omega) (min (s + MAX_CHUNK_LINES) lines.length - s) s 0 none s
    (by omega) hmax (fun j hj => by cases hj)
  simp only [findChunkBoundary]
  rw [if_neg (by omega)]
  rcases hc with ⟨hd, hbl⟩ | hm
  · left; constructor
    · omega
    · exact hbl
  · right
    rcases Nat.le_total (s + MAX_CHUNK_LINES) lines.length with hle | hle
    · left; omega
    · right; omega

theorem chunkLoop_boundary (h : String → String) (fp : String) (m : Int)
    (lines : List String) :
    ∀ (fuel s : Nat), lines.length ≤ s + fuel →
    ∀ c ∈ chunkLoop h fp lines m fuel s,
      (c.endLine + 1 - c.startLine = MAX_CHUNK_LINES) ∨
      (chunkDepthSum lines (c.startLine - 1) c.endLine = 0 ∧
        isBlankLine (lines.getD (c.endLine - 1) "") = true) ∨
      c.endLine = lines.length := by
  intro fuel
  induction fuel with
  | zero => intro s _ c hc; simp [chunkLoop] at hc
  | succ n ih =>
    intro s hle c hc
    by_cases hlt : s < lines.length
    · simp only [chunkLoop, if_pos hlt] at hc
      rcases List.mem_cons.mp hc with hhd | htl
      · subst hhd
        have hb := findChunkBoundary_bounds lines s hlt
        rcases findChunkBoundary_char lines s hlt with ⟨hd, hbl⟩ | hceil | heof
        · right; left
          refine ⟨?_, hbl⟩
          have hss : s + 1 - 1 = s := by omega
          simpa [Chunk.make, hss] using hd
        · left
          simp only [Chunk.make]
          omega
        · right; right
          simpa [Chunk.make] using heof
      · exact ih (findChunkBoundary lines s).1
          (by have := findChunkBoundary_bounds lines s hlt; omega) c htl
    · simp [chunkLoop, hlt] at hc

/-- C5 counterexample: for the single-line file `"x"` the chunker cuts at
end of file; the chunk spans 1 line (not `max_chunk_lines`) and its last
line is not blank, so neither of the claim's two permitted boundary kinds
holds. -/
theorem claim_C5_counterexample :
    chunkFile exHash "f" "x" 0 =
      [{ filePath := "f", startLine := 1, endLine := 1, contentHash := "H"
         content := "x", lastModified := 0 }] ∧
    ¬ ((1 + 1 - 1 = MAX_CHUNK_LINES) ∨
        (chunkDepthSum (rustLines "x") 0 1 = 0 ∧
          isBlankLine ((rustLines "x").getD 0 "") = true)) := by
  decide

/-- C5 (amended): every chunk boundary either (a) spans exactly
`max_chunk_lines` (300) lines, or (b) has bracket depth summing to zero
over the chunk's lines with a blank last included line, or (c) is the end
of the file. -/
theorem claim_C5_amended : ∀ (h : String → String) (fp content : String)
    (m : Int), ∀ c ∈ chunkFile h fp content m,
    (c.endLine + 1 - c.startLine = MAX_CHUNK_LINES) ∨
    (chunkDepthSum (rustLines content) (c.startLine - 1) c.endLine = 0 ∧
      isBlankLine ((rustLines content).getD (c.endLine - 1) "") = true) ∨
    c.endLine = (rustLines content).length := by
  intro h fp content m c hc
  exact chunkLoop_boundary h fp m (rustLines content)
    (rustLines content).length 0 (by omega) c hc

/-- Witness for C5 (amended): the first chunk of `"a\n\nb\n"` ends on the
blank line 2 with balanced brackets (case (b)). -/
theorem claim_C5_witness :
    ((Chunk.make exHash "f" 1 2 "a\n" 0).endLine + 1 -
        (Chunk.make exHash "f" 1 2 "a\n" 0).startLine = MAX_CHUNK_LINES) ∨
    (chunkDepthSum (rustLines "a\n\nb\n")
        ((Chunk.make exHash "f" 1 2 "a\n" 0).startLine - 1)
        (Chunk.make exHash "f" 1 2 "a\n" 0).endLine = 0 ∧
      isBlankLine ((rustLines "a\n\nb\n").getD
        ((Chunk.make exHash "f" 1 2 "a\n" 0).endLine - 1) "") = true) ∨
    (Chunk.make exHash "f" 1 2 "a\n" 0).endLine =
      (rustLines "a\n\nb\n").length :=
  claim_C5_amended exHash "f" "a\n\nb\n" 0 (Chunk.make exHash "f" 1 2 "a\n" 0)
    (by decide)

/-! ## Read continuation lemmas (claim C3) -/

/-- The effective end of the requested slice: the requested `end_line`
clamped to EOF (EOF when absent), as `read_file_slice` computes it. -/
def endIndex (L : List String) (reqEnd : Option Nat) : Nat :=
  min (reqEnd.getD L.length) L.length

theorem numberFrom_length : ∀ (xs : List String) (n : Nat),
    (numberFrom n xs).length = xs.length := by
  intro xs
  induction xs with
  | nil => intro n; rfl
  | cons x xs ih => intro n; simp [numberFrom, ih]

theorem numberFrom_map_snd : ∀ (xs : List String) (n : Nat),
    (numberFrom n xs).map Prod.snd = xs := by
  intro xs
  induction xs with
  | nil => intro n; rfl
  | cons x xs ih => intro n; simp [numberFrom, ih]

theorem numberFrom_mem : ∀ (xs : List String) (n : Nat),
    ∀ p ∈ numberFrom n xs, p.2 ∈ xs := by
  intro xs
  induction xs with
  | nil => intro n p hp; cases hp
  | cons x xs ih =>
    intro n p hp
    rcases List.mem_cons.mp hp with hhd | htl
    · subst hhd; simp
    · exact List.mem_cons_of_mem _ (ih (n + 1) p htl)

theorem numberFrom_get? : ∀ (xs : List String) (n k : Nat),
    (numberFrom n xs).get? k = (xs.get? k).map (fun l => (n + k, l)) := by
  intro xs
  induction xs with
  | nil => intro n k; simp [numberFrom]
  | cons x xs ih =>
    intro n k
    cases k with
    | zero => simp [numberFrom]
    | succ j =>
      simp only [numberFrom, List.get?_cons_succ, ih (n + 1) j]
      have : n + 1 + j = n + (j + 1) := by omega
      rw [this]

theorem numberFrom_drop : ∀ (xs : List String) (n k : Nat),
    (numberFrom n xs).drop k = numberFrom (n + k) (xs.drop k) := by
  intro xs
  induction xs with
  | nil => intro n k; simp [numberFrom]
  | cons x xs ih =>
    intro n k
    cases k with
    | zero => simp
    | succ j =>
      simp only [numberFrom, List.drop_succ_cons, ih (n + 1) j]
      have : n + 1 + j = n + (j + 1) := by omega
      rw [this]

/-- Slice-mode `read_file_slice` succeeds on an in-range start line and
serves the numbered slice up to `endIndex`. -/
theorem readFileSlice_ok (L : List String) (cur : Nat) (reqEnd : Option Nat)
    (h1 : 1 ≤ cur) (h2 : cur ≤ endIndex L reqEnd) :
    readFileSlice L cur reqEnd =
      Except.ok (numberFrom cur
        ((L.drop (cur - 1)).take (endIndex L reqEnd - cur + 1))) := by
  have hE : endIndex L reqEnd ≤ L.length := min_le_right _ _
  have hL0 : 0 < L.length := by omega
  simp only [readFileSlice]
  rw [if_neg (by omega)]
  rw [if_neg (by
    simp only [List.isEmpty_iff]
    exact List.ne_nil_of_length_pos hL0)]
  rw [if_neg (by omega)]
  rw [if_neg (show ¬ (min (reqEnd.getD L.length) L.length < cur) by
    simp only [endIndex] at h2; omega)]
  rfl

/-- Budget satisfaction of one value against one optional limit. -/
def fitsB (o : Option Nat) (v : Nat) : Prop :=
  match o with
  | none => True
  | some m => v ≤ m

instance (o : Option Nat) (v : Nat) : Decidable (fitsB o v) :=
  match o with
  | none => isTrue trivial
  | some m => inferInstanceAs (Decidable (v ≤ m))

/-- A line fits the per-call byte and token budgets on its own. -/
def FitsLine (lims : Limits) (line : String) : Prop :=
  fitsB lims.maxBytes (strBytes line) ∧ fitsB lims.maxTokens (estimate_tokens line)

/-- The line budget, when supplied, admits at least one line. -/
def PosLines (lims : Limits) : Prop := fitsB lims.maxLines 1

instance (lims : Limits) (line : String) : Decidable (FitsLine lims line) :=
  inferInstanceAs (Decidable (_ ∧ _))

instance (lims : Limits) : Decidable (PosLines lims) :=
  inferInstanceAs (Decidable (fitsB lims.maxLines 1))

theorem budgetLoop_le (lims : Limits) : ∀ (rem : List (Nat × String))
    (c b t : Nat), (budgetLoop lims rem c b t).1 ≤ rem.length := by
  intro rem
  induction rem with
  | nil => intro c b t; simp [budgetLoop]
  | cons p rest ih =>
    intro c b t
    obtain ⟨n, line⟩ := p
    simp only [budgetLoop]
    split
    · split
      · exact Nat.succ_le_succ (ih _ _ _)
      · simp
    · split
      · exact Nat.succ_le_succ (ih _ _ _)
      · simp

theorem budgetLoop_pos (lims : Limits) (hpos : PosLines lims)
    (n0 : Nat) (l0 : String) (rest : List (Nat × String))
    (hfit : FitsLine lims l0) :
    1 ≤ (budgetLoop lims ((n0, l0) :: rest) 0 0 0).1 := by
  simp only [budgetLoop]
  rw [if_pos trivial]
  split
  · simp
  · rename_i hcond
    exfalso
    apply hcond
    simp only [Bool.and_eq_true]
    refine ⟨⟨?_, ?_⟩, ?_⟩
    · cases hm : lims.maxLines with
      | none => simp
      | some m =>
        have := hpos
        simp only [PosLines, hm, fitsB] at this
        simp only [decide_eq_true_eq]
        omega
    · cases hm : lims.maxBytes with
      | none => simp
      | some m =>
        have := hfit.1
        simp only [hm, fitsB] at this
        simp only [decide_eq_true_eq]
        omega
    · cases hm : lims.maxTokens with
      | none => simp
      | some m =>
        have := hfit.2
        simp only [hm, fitsB] at this
        simp only [decide_eq_true_eq]
        omega

/-- One `read_code` slice call under budgets: when the start is in range
and the first remaining line fits, the call returns `ok` serving a
non-empty prefix of the remaining numbered slice; it is truncated exactly
when lines remain, and then `continuation_start_line` is the first
unserved line number. -/
theorem readCodeSlice_spec (L : List String) (reqEnd : Option Nat)
    (lims : Limits) (hpos : PosLines lims) (cur : Nat)
    (hfits : ∀ line ∈ (L.drop (cur - 1)).take (endIndex L reqEnd - cur + 1),
      FitsLine lims line)
    (h1 : 1 ≤ cur) (h2 : cur ≤ endIndex L reqEnd) :
    ∃ b k,
      readCodeSlice L cur reqEnd lims = ReadResult.ok b ∧
      1 ≤ k ∧ k ≤ endIndex L reqEnd - cur + 1 ∧
      (numberFrom cur
        ((L.drop (cur - 1)).take (endIndex L reqEnd - cur + 1))).length =
        endIndex L reqEnd - cur + 1 ∧
      b.includedLines =
        (numberFrom cur
          ((L.drop (cur - 1)).take (endIndex L reqEnd - cur + 1))).take k ∧
      b.consumedLines = k ∧
      b.truncated = decide (k < endIndex L reqEnd - cur + 1) ∧
      b.nextStartLine =
        (if k < endIndex L reqEnd - cur + 1 then some (cur + k) else none) := by
  have hEle : endIndex L reqEnd ≤ L.length := by
    unfold endIndex; exact min_le_right _ _
  have hslice := readFileSlice_ok L cur reqEnd h1 h2
  set S := numberFrom cur
    ((L.drop (cur - 1)).take (endIndex L reqEnd - cur + 1)) with hS
  have hulen : ((L.drop (cur - 1)).take (endIndex L reqEnd - cur + 1)).length =
      endIndex L reqEnd - cur + 1 := by
    rw [List.length_take, List.length_drop]
    omega
  have hservedlen : S.length = endIndex L reqEnd - cur + 1 := by
    rw [hS, numberFrom_length, hulen]
  have hne : S ≠ [] := by
    intro hcon
    rw [hcon] at hservedlen
    simp at hservedlen
  obtain ⟨p, rest, hps⟩ := List.exists_cons_of_ne_nil hne
  obtain ⟨n0, l0⟩ := p
  have hmem : l0 ∈ (L.drop (cur - 1)).take (endIndex L reqEnd - cur + 1) := by
    have hpin : (n0, l0) ∈ S := by rw [hps]; exact List.mem_cons_self _ _
    rw [hS] at hpin
    exact numberFrom_mem _ _ (n0, l0) hpin
  set k := (budgetLoop lims S 0 0 0).1 with hk
  have hk1 : 1 ≤ k := by
    rw [hk, hps]
    exact budgetLoop_pos lims hpos n0 l0 rest (hfits _ hmem)
  have hkle : k ≤ S.length := budgetLoop_le lims S 0 0 0
  have hab : readCodeSlice L cur reqEnd lims = ReadResult.ok
      { includedLines := S.take k
        firstLine := (((S.take k).head?).map Prod.fst).getD 1
        lastLine := (((S.take k).getLast?).map Prod.fst).getD 0
        consumedLines := k
        consumedBytes := (budgetLoop lims S 0 0 0).2.1
        consumedTokens := (budgetLoop lims S 0 0 0).2.2
        truncated := decide (k < S.length)
        nextStartLine := if decide (k < S.length) = true
          then (S.get? k).map Prod.fst else none } := by
    have habne : S.isEmpty = false := by simpa [List.isEmpty_iff] using hne
    simp only [readCodeSlice, hslice, applyBudgets, habne]
    rw [if_neg (by simp), if_neg (by omega)]
  refine ⟨_, k, hab, hk1, by omega, hservedlen, rfl, rfl, ?_, ?_⟩
  · show decide (k < S.length) = decide (k < endIndex L reqEnd - cur + 1)
    rw [hservedlen]
  · show (if decide (k < S.length) = true then (S.get? k).map Prod.fst
        else none) = _
    by_cases hlt : k < endIndex L reqEnd - cur + 1
    · have hlt' : k < S.length := by omega
      rw [if_pos (by simpa using hlt'), if_pos hlt]
      have hlen2 : k <
          ((L.drop (cur - 1)).take (endIndex L reqEnd - cur + 1)).length := by
        omega
      rw [hS, numberFrom_get?, List.get?_eq_get hlen2]
      simp
    · rw [if_neg (by simp only [decide_eq_true_eq]; omega), if_neg hlt]

/-- A later start inside the slice serves a suffix of it: the remaining
numbered slice at `cur + j` is the original slice at `cur` with its first
`j` lines dropped. -/
theorem slice_drop (L : List String) (reqEnd : Option Nat) (cur j : Nat)
    (h1 : 1 ≤ cur) (h2 : cur + j ≤ endIndex L reqEnd) :
    (L.drop (cur + j - 1)).take (endIndex L reqEnd - (cur + j) + 1) =
      ((L.drop (cur - 1)).take (endIndex L reqEnd - cur + 1)).drop j := by
  rw [List.drop_take, List.drop_drop]
  have e1 : endIndex L reqEnd - cur + 1 - j =
      endIndex L reqEnd - (cur + j) + 1 := by omega
  have e2 : cur - 1 + j = cur + j - 1 := by omega
  rw [e1, e2]

/-- Following the continuation protocol from an in-range start line, with
every line of the requested slice within the per-call budgets, serves
exactly the numbered slice from the start to `endIndex` (EOF or the
requested end line). -/
theorem collectReads_spec (L : List String) (reqEnd : Option Nat)
    (lims : Limits) (hpos : PosLines lims) :
    ∀ (n cur : Nat), 1 ≤ cur → cur ≤ endIndex L reqEnd →
      endIndex L reqEnd + 1 - cur ≤ n →
      (∀ line ∈ (L.drop (cur - 1)).take (endIndex L reqEnd - cur + 1),
        FitsLine lims line) →
      collectReads L reqEnd lims n cur =
        some (numberFrom cur
          ((L.drop (cur - 1)).take (endIndex L reqEnd - cur + 1))) := by
  intro n
  induction n with
  | zero => intro cur h1 h2 hf _; omega
  | succ n ih =>
    intro cur h1 h2 hf hfits
    obtain ⟨b, k, hok, hk1, hkle, hlen, hinc, hcons, htr, hnext⟩ :=
      readCodeSlice_spec L reqEnd lims hpos cur hfits h1 h2
    simp only [collectReads, hok, hnext]
    by_cases hlt : k < endIndex L reqEnd - cur + 1
    · rw [if_pos hlt]
      have hds := slice_drop L reqEnd cur k h1 (by omega)
      have hfits' : ∀ line ∈ (L.drop (cur + k - 1)).take
          (endIndex L reqEnd - (cur + k) + 1), FitsLine lims line := by
        intro line hl
        rw [hds] at hl
        exact hfits line (List.drop_subset _ _ hl)
      have hrec := ih (cur + k) (by omega) (by omega) (by omega) hfits'
      simp only [hrec, hinc]
      show some _ = some _
      congr 1
      rw [hds, ← numberFrom_drop, List.take_append_drop]
    · rw [if_neg hlt]
      simp only [hinc]
      rw [List.take_of_length_le (show (numberFrom cur
        ((L.drop (cur - 1)).take (endIndex L reqEnd - cur + 1))).length ≤ k
        by omega)]

/-- C3 counterexample: for the one-line file `["abc"]` with
`max_bytes = 2` (a budget combination `parse_limits` accepts), the very
first call returns `payload_too_large`: there is no continuation to
follow and no sequence of `read_code` calls reproduces the slice. -/
theorem claim_C3_counterexample :
    readCodeSlice ["abc"] 1 none
      { maxLines := none, maxBytes := some 2, maxTokens := none } =
      ReadResult.tooLarge ∧
    collectReads ["abc"] none
      { maxLines := none, maxBytes := some 2, maxTokens := none } 5 1 =
      none := by
  decide

/-- C3 (amended): for every non-empty file and every budget combination
whose line budget admits at least one line and whose byte and token
budgets admit every line of the requested slice on its own, concatenating
the served lines of successive `read_code` calls (each passing the
previous response's `continuation_start_line`) reproduces the unbroken
numbered slice from the initial start line to EOF or the requested end
line; the served texts concatenate to the slice's lines; and each
truncated response (at any start within the chain's range) has
`continuation_start_line` equal to the first unserved line. -/
theorem claim_C3_amended : ∀ (L : List String) (reqEnd : Option Nat)
    (lims : Limits) (s0 fuel : Nat),
    L ≠ [] →
    PosLines lims →
    (∀ line ∈ (L.drop (s0 - 1)).take (endIndex L reqEnd - s0 + 1),
      FitsLine lims line) →
    1 ≤ s0 → s0 ≤ endIndex L reqEnd →
    endIndex L reqEnd + 1 - s0 ≤ fuel →
    (collectReads L reqEnd lims fuel s0 =
      some (numberFrom s0
        ((L.drop (s0 - 1)).take (endIndex L reqEnd - s0 + 1)))) ∧
    ((numberFrom s0
        ((L.drop (s0 - 1)).take (endIndex L reqEnd - s0 + 1))).map Prod.snd =
      (L.drop (s0 - 1)).take (endIndex L reqEnd - s0 + 1)) ∧
    (∀ cur b, s0 ≤ cur → cur ≤ endIndex L reqEnd →
      readCodeSlice L cur reqEnd lims = ReadResult.ok b →
      b.truncated = true → b.nextStartLine = some (cur + b.consumedLines)) := by
  intro L reqEnd lims s0 fuel _ hpos hfits h1 h2 hfuel
  refine ⟨collectReads_spec L reqEnd lims hpos fuel s0 h1 h2 hfuel hfits,
    numberFrom_map_snd _ _, ?_⟩
  intro cur b hc1 hc2 hok htrunc
  have hds := slice_drop L reqEnd s0 (cur - s0) h1 (by omega)
  have hcexp : s0 + (cur - s0) = cur := by omega
  rw [hcexp] at hds
  have hfits' : ∀ line ∈ (L.drop (cur - 1)).take
      (endIndex L reqEnd - cur + 1), FitsLine lims line := by
    intro line hl
    rw [hds] at hl
    exact hfits line (List.drop_subset _ _ hl)
  obtain ⟨b', k, hok', _, _, _, _, hcons, htr, hnext⟩ :=
    readCodeSlice_spec L reqEnd lims hpos cur hfits' (by omega) hc2
  rw [hok'] at hok
  have hbb : b' = b := by
    cases hok
    rfl
  subst hbb
  rw [htr] at htrunc
  have hklt : k < endIndex L reqEnd - cur + 1 := by
    simpa using htrunc
  rw [hnext, if_pos hklt, hcons]

/-- Witness for C3 (amended): the spec's S4 scenario — reading
`"a\nb\nc\nd\n"` two lines at a time serves the four numbered lines across
the continuation chain. -/
theorem claim_C3_witness :
    collectReads ["a", "b", "c", "d"] none
      { maxLines := some 2, maxBytes := some MAX_MCP_READ_BYTES
        maxTokens := none } 4 1 =
      some [(1, "a"), (2, "b"), (3, "c"), (4, "d")] := by
  have h := (claim_C3_amended ["a", "b", "c", "d"] none
    { maxLines := some 2, maxBytes := some MAX_MCP_READ_BYTES
      maxTokens := none } 1 4
    (by decide) (by decide) (by decide) (by decide) (by decide) (by decide)).1
  simpa using h
